import Mathlib

/-!
Verification development for the Truth-Seeker repository.

The repository pairs a Next.js frontend (conversation history in
localStorage, chat input with file attachments) with a FastAPI backend
(task queue, global rate limiter, manual tool-calling loop against the
LLM).  The frontend sources are embedded directly; the backend sources
are not present in this checkout, so the backend components are modelled
from the specification, as marked on each definition.
-/

namespace TruthSeeker

/-! ## RateLimiter -/

/-- Modelled from the spec: the backend file backend/services/semantic_scholar.py
with its rate-limit wait is not in this checkout.  Per spec section 4.1 the
limiter keeps a single shared lastCallTimestamp; an acquire arriving at
wall-clock time t is permitted immediately when no call was permitted yet,
and otherwise at time max t (last + interval), i.e. it blocks until the
configured minimum interval has elapsed since the previous permitted call. -/
def permitTime (interval : Nat) (last : Option Nat) (t : Nat) : Nat :=
  match last with
  | none => t
  | some l => max t (l + interval)

/-- Modelled from the spec: concurrent acquire calls are serialized by the
limiter's internal lock, so every concurrent execution is equivalent to
running the acquires in some sequential order.  runAcquires folds one such
serialized order of request times and returns the permit (completion)
timestamps; the new lastCallTimestamp after each call is its permit time
(the slot is reserved atomically before the lock is released). -/
def runAcquires (interval : Nat) (last : Option Nat) : List Nat → List Nat
  | [] => []
  | t :: ts =>
    let p := permitTime interval last t
    p :: runAcquires interval (some p) ts

theorem le_of_mem_runAcquires (interval : Nat) (ts : List Nat) :
    ∀ l p, p ∈ runAcquires interval (some l) ts → l + interval ≤ p := by
  induction ts with
  | nil => intro l p hp; simp [runAcquires] at hp
  | cons t ts ih =>
    intro l p hp
    simp only [runAcquires, List.mem_cons] at hp
    rcases hp with h | h
    · subst h
      exact le_max_right _ _ |>.trans (le_of_eq rfl) |>.trans (le_of_eq rfl)
    · have h1 : permitTime interval (some l) t + interval ≤ p := ih _ p h
      have h2 : l + interval ≤ permitTime interval (some l) t := le_max_right _ _
      exact h2.trans ((Nat.le_add_right _ _).trans h1)

/-- C1: in any serialized order of N concurrent acquire calls on one
RateLimiter with minimum interval I, the permit (completion) timestamps of
any two permitted calls differ by at least I: each later permit is at least
I beyond each earlier one. -/
theorem rateLimiter_min_gap (interval : Nat) (last : Option Nat) (ts : List Nat) :
    (runAcquires interval last ts).Pairwise (fun a b => a + interval ≤ b) := by
  induction ts generalizing last with
  | nil => simp [runAcquires]
  | cons t ts ih =>
    simp only [runAcquires]
    refine List.Pairwise.cons ?_ (ih _)
    intro b hb
    exact le_of_mem_runAcquires interval ts _ b hb

/-! ## TaskQueue and TaskStatusStore -/

/-- Modelled from the spec: backend/utils/queue_manager.py is not in this
checkout.  Task status values, per spec section 3. -/
inductive TaskStatus
  | pending
  | processing
  | completed
  | failed
deriving DecidableEq, Repr, Fintype

def TaskStatus.isTerminal : TaskStatus → Bool
  | .completed => true
  | .failed => true
  | _ => false

/-- Modelled from the spec: one task record of the TaskStatusStore
(spec section 3, Task). -/
structure Task where
  id : Nat
  status : TaskStatus
  result : Option String
  error : Option String
  createdAt : Nat
  completedAt : Option Nat
deriving DecidableEq, Repr

/-- Modelled from the spec: the queue state is the ordered status store
(tasks in submission order), the next fresh id, the configured maximum
backlog (capacity) and the retention window for terminal tasks. -/
structure QueueState where
  tasks : List Task
  nextId : Nat
  capacity : Nat
  retention : Nat
deriving DecidableEq, Repr

def initState (capacity retention : Nat) : QueueState :=
  { tasks := [], nextId := 0, capacity := capacity, retention := retention }

def pendingCount (s : QueueState) : Nat :=
  (s.tasks.filter fun t => t.status == TaskStatus.pending).length

/-- Modelled from the spec: submit assigns the next id, sets status pending,
appends to the tail of the ordered pending list and returns the id, or
fails with QueueFull (returns none) when the configured maximum backlog is
already reached. -/
def submit (s : QueueState) (now : Nat) : Option Nat × QueueState :=
  if s.capacity ≤ pendingCount s then (none, s)
  else
    (some s.nextId,
      { s with
        tasks := s.tasks ++ [{ id := s.nextId, status := TaskStatus.pending,
                               result := none, error := none,
                               createdAt := now, completedAt := none }],
        nextId := s.nextId + 1 })

def markFirstPending : List Task → List Task
  | [] => []
  | t :: ts =>
    if t.status == TaskStatus.pending then
      { t with status := TaskStatus.processing } :: ts
    else
      t :: markFirstPending ts

/-- Modelled from the spec: a worker pops the head of the pending list and
moves it to processing. -/
def dequeue (s : QueueState) : QueueState :=
  { s with tasks := markFirstPending s.tasks }

def finishWith (k : Nat) (st : TaskStatus) (res err : Option String) (now : Nat)
    (t : Task) : Task :=
  if t.id == k && t.status == TaskStatus.processing then
    { t with status := st, result := res, error := err, completedAt := some now }
  else t

/-- Modelled from the spec: the worker that owns a processing task writes the
final result and the completed status plus the completion timestamp. -/
def complete (s : QueueState) (k : Nat) (res : String) (now : Nat) : QueueState :=
  { s with tasks := s.tasks.map (finishWith k TaskStatus.completed (some res) none now) }

/-- Modelled from the spec: the worker that owns a processing task writes the
error and the failed status plus the completion timestamp. -/
def failTask (s : QueueState) (k : Nat) (err : String) (now : Nat) : QueueState :=
  { s with tasks := s.tasks.map (finishWith k TaskStatus.failed none (some err) now) }

/-- Modelled from the spec: the janitor evicts a task once it is terminal and
now - completedAt exceeds the retention window, and never otherwise. -/
def evict (retention now : Nat) (t : Task) : Bool :=
  match t.completedAt with
  | some c => t.status.isTerminal && decide (retention < now - c)
  | none => false

/-- Modelled from the spec: the background janitor scans the store and drops
every evictable task. -/
def janitor (s : QueueState) (now : Nat) : QueueState :=
  { s with tasks := s.tasks.filter fun t => !evict s.retention now t }

/-- Modelled from the spec: the polling read; none models NotFound. -/
def statusOf (s : QueueState) (k : Nat) : Option TaskStatus :=
  (s.tasks.find? fun t => t.id == k).map Task.status

/-- Modelled from the spec: the operations that mutate the queue state
(submission path, worker dequeue, worker completion or failure, janitor). -/
inductive QOp
  | submit (now : Nat)
  | dequeue
  | complete (k : Nat) (res : String) (now : Nat)
  | failTask (k : Nat) (err : String) (now : Nat)
  | janitor (now : Nat)
deriving DecidableEq, Repr

def applyOp (s : QueueState) : QOp → QueueState
  | .submit now => (submit s now).2
  | .dequeue => dequeue s
  | .complete k res now => complete s k res now
  | .failTask k err now => failTask s k err now
  | .janitor now => janitor s now

def runOps (s : QueueState) : List QOp → QueueState
  | [] => s
  | op :: ops => runOps (applyOp s op) ops

def taskIds (s : QueueState) : List Nat := s.tasks.map Task.id

/-- Well-formedness of a queue state: ids are strictly increasing in
submission order and every stored id is below the next fresh id.  This holds
in the initial state and is preserved by every operation. -/
def WF (s : QueueState) : Prop :=
  List.Pairwise (· < ·) (taskIds s) ∧ ∀ i ∈ taskIds s, i < s.nextId

/-- Forward order on statuses: pending may move to anything, processing to a
terminal status, and completed and failed are terminal. -/
def statusLe : TaskStatus → TaskStatus → Bool
  | .pending, _ => true
  | .processing, .pending => false
  | .processing, _ => true
  | .completed, b => b == TaskStatus.completed
  | .failed, b => b == TaskStatus.failed

theorem statusLe_refl : ∀ a, statusLe a a = true := by decide

theorem statusLe_trans :
    ∀ a b c, statusLe a b = true → statusLe b c = true → statusLe a c = true := by
  decide

theorem finishWith_id (k : Nat) (st : TaskStatus) (res err : Option String)
    (now : Nat) (t : Task) : (finishWith k st res err now t).id = t.id := by
  unfold finishWith; split <;> rfl

theorem find?_map_of_id (f : Task → Task) (hf : ∀ t, (f t).id = t.id) (k : Nat) :
    ∀ l : List Task,
      (l.map f).find? (fun t => t.id == k) = (l.find? fun t => t.id == k).map f := by
  intro l
  induction l with
  | nil => rfl
  | cons a l ih =>
    simp only [List.map_cons, List.find?_cons, hf]
    cases a.id == k with
    | true => rfl
    | false => exact ih

theorem markFirstPending_map_id :
    ∀ l : List Task, (markFirstPending l).map Task.id = l.map Task.id := by
  intro l
  induction l with
  | nil => rfl
  | cons a l ih =>
    unfold markFirstPending
    split
    · rfl
    · simp [ih]

theorem find?_markFirstPending (k : Nat) (t : Task) :
    ∀ l : List Task, l.find? (fun u => u.id == k) = some t →
      (markFirstPending l).find? (fun u => u.id == k) = some t ∨
        ((markFirstPending l).find? (fun u => u.id == k) =
            some { t with status := TaskStatus.processing } ∧
          t.status = TaskStatus.pending) := by
  intro l
  induction l with
  | nil => intro h; simp at h
  | cons a l ih =>
    intro h
    rw [List.find?_cons] at h
    unfold markFirstPending
    by_cases hpend : a.status == TaskStatus.pending
    · rw [if_pos hpend]
      by_cases hid : a.id == k
      · rw [hid] at h
        cases h
        right
        refine ⟨?_, by simpa using hpend⟩
        rw [List.find?_cons]
        rw [show (({ t with status := TaskStatus.processing } : Task).id == k) = true from hid]
      · rw [Bool.of_not_eq_true hid] at h
        left
        rw [List.find?_cons]
        have : ({ a with status := TaskStatus.processing } : Task).id = a.id := rfl
        simp only [this, Bool.of_not_eq_true hid]
        exact h
    · rw [if_neg hpend]
      by_cases hid : a.id == k
      · rw [hid] at h
        cases h
        left
        rw [List.find?_cons, hid]
      · rw [Bool.of_not_eq_true hid] at h
        rcases ih h with h2 | h2
        · left; rw [List.find?_cons, Bool.of_not_eq_true hid]; exact h2
        · right
          refine ⟨?_, h2.2⟩
          rw [List.find?_cons, Bool.of_not_eq_true hid]
          exact h2.1

theorem find?_eq_some_of_mem (k : Nat) (t : Task) :
    ∀ l : List Task, l.Pairwise (fun a b => a.id < b.id) → t ∈ l → t.id = k →
      l.find? (fun u => u.id == k) = some t := by
  intro l
  induction l with
  | nil => intro _ hm; simp at hm
  | cons a l ih =>
    intro hpw hm hid
    rw [List.pairwise_cons] at hpw
    rw [List.find?_cons]
    rcases List.mem_cons.mp hm with rfl | hm2
    · simp [hid]
    · have hlt : a.id < k := hid ▸ hpw.1 t hm2
      have : (a.id == k) = false := by simp [Nat.ne_of_lt hlt]
      rw [this]
      exact ih hpw.2 hm2 hid

theorem find?_filter_unique (p : Task → Bool) (k : Nat) (t : Task) :
    ∀ l : List Task, l.Pairwise (fun a b => a.id < b.id) → t ∈ l → t.id = k →
      (l.filter p).find? (fun u => u.id == k) = if p t then some t else none := by
  intro l
  induction l with
  | nil => intro _ hm; simp at hm
  | cons a l ih =>
    intro hpw hm hid
    rw [List.pairwise_cons] at hpw
    rw [List.filter_cons]
    rcases List.mem_cons.mp hm with rfl | hm2
    · have hnone : (l.filter p).find? (fun u => u.id == k) = none := by
        rw [List.find?_eq_none]
        intro x hx
        have hlt : t.id < x.id := hpw.1 x (List.mem_of_mem_filter hx)
        simp [Nat.ne_of_gt (hid ▸ hlt)]
      by_cases hp : p t
      · rw [if_pos hp, if_pos hp, List.find?_cons]
        simp [hid]
      · rw [if_neg hp, if_neg hp]
        exact hnone
    · have hlt : a.id < k := hid ▸ hpw.1 t hm2
      have hne : (a.id == k) = false := by simp [Nat.ne_of_lt hlt]
      by_cases hp : p a
      · rw [if_pos hp, List.find?_cons, hne]
        exact ih hpw.2 hm2 hid
      · rw [if_neg hp]
        exact ih hpw.2 hm2 hid

theorem statusOf_eq_none_iff (s : QueueState) (k : Nat) :
    statusOf s k = none ↔ ∀ t ∈ s.tasks, t.id ≠ k := by
  simp [statusOf, List.find?_eq_none]

theorem map_id_finishWith (k : Nat) (st : TaskStatus) (res err : Option String)
    (now : Nat) (l : List Task) :
    (l.map (finishWith k st res err now)).map Task.id = l.map Task.id := by
  rw [List.map_map]
  exact List.map_congr_left fun t _ => finishWith_id _ _ _ _ _ t

theorem nextId_applyOp (s : QueueState) (op : QOp) :
    s.nextId ≤ (applyOp s op).nextId := by
  cases op with
  | submit now =>
    simp only [applyOp, submit]
    split <;> simp
  | dequeue => exact Nat.le_refl _
  | complete k res now => exact Nat.le_refl _
  | failTask k err now => exact Nat.le_refl _
  | janitor now => exact Nat.le_refl _

theorem WF_applyOp (s : QueueState) (op : QOp) (hwf : WF s) : WF (applyOp s op) := by
  obtain ⟨hpw, hlt⟩ := hwf
  cases op with
  | submit now =>
    simp only [applyOp, submit]
    split
    · exact ⟨hpw, hlt⟩
    · constructor
      · simp only [taskIds, List.map_append, List.pairwise_append]
        refine ⟨hpw, by simp, ?_⟩
        intro a ha b hb
        simp only [List.map_cons, List.map_nil, List.mem_singleton] at hb
        exact hb ▸ hlt a ha
      · intro i hi
        simp only [taskIds, List.map_append, List.mem_append] at hi
        rcases hi with hi | hi
        · exact Nat.lt_succ_of_lt (hlt i hi)
        · simp only [List.map_cons, List.map_nil, List.mem_singleton] at hi
          simp [hi]
  | dequeue =>
    have hids : taskIds (applyOp s QOp.dequeue) = taskIds s :=
      markFirstPending_map_id s.tasks
    exact ⟨hids ▸ hpw, by rw [hids]; exact hlt⟩
  | complete k res now =>
    have hids : taskIds (applyOp s (QOp.complete k res now)) = taskIds s :=
      map_id_finishWith _ _ _ _ _ s.tasks
    exact ⟨hids ▸ hpw, by rw [hids]; exact hlt⟩
  | failTask k err now =>
    have hids : taskIds (applyOp s (QOp.failTask k err now)) = taskIds s :=
      map_id_finishWith _ _ _ _ _ s.tasks
    exact ⟨hids ▸ hpw, by rw [hids]; exact hlt⟩
  | janitor now =>
    have hsub : List.Sublist (taskIds (applyOp s (QOp.janitor now))) (taskIds s) :=
      (List.filter_sublist s.tasks).map Task.id
    exact ⟨List.Pairwise.sublist hsub hpw, fun i hi => hlt i (hsub.subset hi)⟩

theorem statusLe_finishWith (k : Nat) (st : TaskStatus) (hst : st.isTerminal = true)
    (res err : Option String) (now : Nat) (t : Task) :
    statusLe t.status (finishWith k st res err now t).status = true := by
  unfold finishWith
  split
  · rename_i hcond
    have h2 : t.status = TaskStatus.processing := by
      simp only [Bool.and_eq_true, beq_iff_eq] at hcond
      exact hcond.2
    rw [h2]
    cases st with
    | pending => exact absurd hst (by decide)
    | processing => exact absurd hst (by decide)
    | completed => rfl
    | failed => rfl
  · exact statusLe_refl _

theorem lt_nextId_of_statusOf_some (s : QueueState) (k : Nat) (st : TaskStatus)
    (hwf : WF s) (h : statusOf s k = some st) : k < s.nextId := by
  obtain ⟨t, hfind, _⟩ := by simpa only [statusOf, Option.map_eq_some'] using h
  have hid : t.id = k := by simpa using List.find?_some hfind
  exact hid ▸ hwf.2 t.id (List.mem_map_of_mem Task.id (List.mem_of_find?_eq_some hfind))

theorem statusOf_applyOp_some (s : QueueState) (op : QOp) (k : Nat) (st : TaskStatus)
    (hwf : WF s) (h : statusOf s k = some st) :
    statusOf (applyOp s op) k = none ∨
      ∃ st2, statusOf (applyOp s op) k = some st2 ∧ statusLe st st2 = true := by
  obtain ⟨t, hfind, hst⟩ := by simpa only [statusOf, Option.map_eq_some'] using h
  cases op with
  | submit now =>
    right
    simp only [applyOp, submit]
    by_cases hfull : s.capacity ≤ pendingCount s
    · rw [if_pos hfull]
      exact ⟨st, h, statusLe_refl st⟩
    · rw [if_neg hfull]
      refine ⟨st, ?_, statusLe_refl st⟩
      simp only [statusOf, List.find?_append, hfind]
      simp [hst]
  | dequeue =>
    right
    rcases find?_markFirstPending k t s.tasks hfind with h2 | ⟨h2, hpend⟩
    · exact ⟨st, by simp [applyOp, dequeue, statusOf, h2, hst], statusLe_refl st⟩
    · refine ⟨TaskStatus.processing, by simp [applyOp, dequeue, statusOf, h2], ?_⟩
      rw [← hst, hpend]
      decide
  | complete k2 res now =>
    right
    have hmap := find?_map_of_id (finishWith k2 TaskStatus.completed (some res) none now)
      (fun u => finishWith_id _ _ _ _ _ u) k s.tasks
    refine ⟨(finishWith k2 TaskStatus.completed (some res) none now t).status, ?_, ?_⟩
    · simp [applyOp, complete, statusOf, hmap, hfind]
    · rw [← hst]
      exact statusLe_finishWith k2 TaskStatus.completed (by decide) (some res) none now t
  | failTask k2 err now =>
    right
    have hmap := find?_map_of_id (finishWith k2 TaskStatus.failed none (some err) now)
      (fun u => finishWith_id _ _ _ _ _ u) k s.tasks
    refine ⟨(finishWith k2 TaskStatus.failed none (some err) now t).status, ?_, ?_⟩
    · simp [applyOp, failTask, statusOf, hmap, hfind]
    · rw [← hst]
      exact statusLe_finishWith k2 TaskStatus.failed (by decide) none (some err) now t
  | janitor now =>
    have hpw : s.tasks.Pairwise (fun a b => a.id < b.id) := List.pairwise_map.mp hwf.1
    have hmem := List.mem_of_find?_eq_some hfind
    have hid : t.id = k := by simpa using List.find?_some hfind
    have hfu := find?_filter_unique (fun u => !evict s.retention now u) k t s.tasks
      hpw hmem hid
    by_cases hev : evict s.retention now t
    · left
      simp [applyOp, janitor, statusOf, hfu, hev]
    · right
      exact ⟨st, by simp [applyOp, janitor, statusOf, hfu, hev, hst], statusLe_refl st⟩

theorem statusOf_applyOp_none (s : QueueState) (op : QOp) (k : Nat)
    (h : statusOf s k = none) (hk : k < s.nextId) :
    statusOf (applyOp s op) k = none := by
  rw [statusOf_eq_none_iff] at h ⊢
  cases op with
  | submit now =>
    simp only [applyOp, submit]
    by_cases hfull : s.capacity ≤ pendingCount s
    · rw [if_pos hfull]; exact h
    · rw [if_neg hfull]
      intro t ht
      simp only [List.mem_append, List.mem_singleton] at ht
      rcases ht with ht | rfl
      · exact h t ht
      · exact Nat.ne_of_gt hk
  | dequeue =>
    intro t ht
    have hmm : t.id ∈ (markFirstPending s.tasks).map Task.id :=
      List.mem_map_of_mem Task.id ht
    rw [markFirstPending_map_id] at hmm
    obtain ⟨u, hu, hui⟩ := List.mem_map.mp hmm
    exact hui ▸ h u hu
  | complete k2 res now =>
    intro t ht
    obtain ⟨u, hu, rfl⟩ := List.mem_map.mp ht
    rw [finishWith_id]
    exact h u hu
  | failTask k2 err now =>
    intro t ht
    obtain ⟨u, hu, rfl⟩ := List.mem_map.mp ht
    rw [finishWith_id]
    exact h u hu
  | janitor now =>
    intro t ht
    exact h t (List.mem_of_mem_filter ht)

theorem statusOf_runOps_aux (k : Nat) :
    ∀ (ops : List QOp) (s : QueueState), WF s → k < s.nextId →
      (statusOf s k = none → statusOf (runOps s ops) k = none) ∧
      (∀ st, statusOf s k = some st →
        statusOf (runOps s ops) k = none ∨
          ∃ st2, statusOf (runOps s ops) k = some st2 ∧ statusLe st st2 = true) := by
  intro ops
  induction ops with
  | nil =>
    intro s _ _
    exact ⟨fun h => h, fun st h => Or.inr ⟨st, h, statusLe_refl st⟩⟩
  | cons op ops ih =>
    intro s hwf hk
    have hwf2 := WF_applyOp s op hwf
    have hk2 : k < (applyOp s op).nextId := Nat.lt_of_lt_of_le hk (nextId_applyOp s op)
    refine ⟨?_, ?_⟩
    · intro h
      exact (ih _ hwf2 hk2).1 (statusOf_applyOp_none s op k h hk)
    · intro st h
      rcases statusOf_applyOp_some s op k st hwf h with h2 | ⟨st2, h2, hle⟩
      · exact Or.inl ((ih _ hwf2 hk2).1 h2)
      · rcases (ih _ hwf2 hk2).2 st2 h2 with h3 | ⟨st3, h3, hle2⟩
        · exact Or.inl h3
        · exact Or.inr ⟨st3, h3, statusLe_trans _ _ _ hle hle2⟩

/-- C2: along any well-formed queue state and any sequence of queue
operations, the status of a task only moves forward along
pending, processing, completed or failed, never regresses, and the
terminal statuses completed and failed are never left again. -/
theorem task_status_monotone (s : QueueState) (ops : List QOp) (k : Nat)
    (st st2 : TaskStatus) (hwf : WF s) (h1 : statusOf s k = some st)
    (h2 : statusOf (runOps s ops) k = some st2) : statusLe st st2 = true := by
  have hk := lt_nextId_of_statusOf_some s k st hwf h1
  rcases (statusOf_runOps_aux k ops s hwf hk).2 st h1 with h3 | ⟨st3, h3, hle⟩
  · rw [h3] at h2; cases h2
  · rw [h2] at h3
    injection h3 with he
    rw [he]
    exact hle

/-- C2 witness: a concrete pending task that is dequeued and completed moves
pending to completed, a forward move. -/
theorem task_status_monotone_witness :
    statusLe TaskStatus.pending TaskStatus.completed = true :=
  task_status_monotone (runOps (initState 3 3600) [QOp.submit 0])
    [QOp.dequeue, QOp.complete 0 "done" 10] 0
    TaskStatus.pending TaskStatus.completed
    (by constructor <;> decide)
    (by decide) (by decide)

/-- C3: a successful submit synchronously records the task, so a status read
with the returned id immediately after submit never answers NotFound: it
answers pending. -/
theorem submit_then_status (s : QueueState) (now k : Nat) (s2 : QueueState)
    (hwf : WF s) (h : submit s now = (some k, s2)) :
    statusOf s2 k = some TaskStatus.pending := by
  unfold submit at h
  by_cases hfull : s.capacity ≤ pendingCount s
  · rw [if_pos hfull] at h
    injection h with h1 h2
    cases h1
  · rw [if_neg hfull] at h
    injection h with h1 h2
    injection h1 with h1
    subst h1
    subst h2
    have hnone : s.tasks.find? (fun t => t.id == s.nextId) = none := by
      rw [List.find?_eq_none]
      intro t ht
      simp only [beq_iff_eq]
      exact Nat.ne_of_lt (hwf.2 t.id (List.mem_map_of_mem Task.id ht))
    simp [statusOf, List.find?_append, hnone]

/-- C3 witness: submitting to the fresh queue and reading back the returned
id yields pending, not NotFound. -/
theorem submit_then_status_witness :
    statusOf (submit (initState 3 3600) 5).2 0 = some TaskStatus.pending :=
  submit_then_status (initState 3 3600) 5 0 (submit (initState 3 3600) 5).2
    (by constructor <;> decide) (by decide)

/-! ## Queue position -/

def pendingIdsQ (s : QueueState) : List Nat :=
  (s.tasks.filter fun t => t.status == TaskStatus.pending).map Task.id

/-- Modelled from the spec: the position reported to a pending task is its
0-indexed distance from the front of the ordered pending list. -/
def idxFromFront (k : Nat) : List Nat → Option Nat
  | [] => none
  | x :: xs => if x == k then some 0 else (idxFromFront k xs).map (· + 1)

def queuePosition (s : QueueState) (k : Nat) : Option Nat :=
  idxFromFront k (pendingIdsQ s)

theorem idx_eq_count (k : Nat) (t : Task) :
    ∀ l : List Task, l.Pairwise (fun a b => a.id < b.id) → t ∈ l → t.id = k →
      t.status = TaskStatus.pending →
      idxFromFront k ((l.filter fun u => u.status == TaskStatus.pending).map Task.id) =
        some (l.countP fun u => u.status == TaskStatus.pending && decide (u.id < k)) := by
  intro l
  induction l with
  | nil => intro _ hm; simp at hm
  | cons a l ih =>
    intro hpw hm hid hpend
    rw [List.pairwise_cons] at hpw
    rw [List.filter_cons, List.countP_cons]
    rcases List.mem_cons.mp hm with rfl | hm2
    · have hpa : (t.status == TaskStatus.pending) = true := by simp [hpend]
      rw [if_pos hpa]
      have hc0 : l.countP (fun u => u.status == TaskStatus.pending && decide (u.id < k)) = 0 := by
        rw [List.countP_eq_zero]
        intro u hu
        have hgt : t.id < u.id := hpw.1 u hu
        simp only [Bool.and_eq_true, decide_eq_true_eq, not_and]
        intro _
        omega
      simp [idxFromFront, hid, hc0, hpa]
    · have hlt : a.id < k := hid ▸ hpw.1 t hm2
      have hne : (a.id == k) = false := by simp [Nat.ne_of_lt hlt]
      by_cases hpa : (a.status == TaskStatus.pending) = true
      · rw [if_pos hpa]
        simp only [List.map_cons, idxFromFront, hne, Bool.false_eq_true, if_false]
        rw [ih hpw.2 hm2 hid hpend]
        simp [hpa, hlt]
      · rw [if_neg hpa]
        have hpf : (a.status == TaskStatus.pending && decide (a.id < k)) = false := by
          simp only [Bool.and_eq_false_iff]
          left
          exact Bool.of_not_eq_true hpa

        rw [hpf]
        simpa using ih hpw.2 hm2 hid hpend

/-- C4: in a well-formed queue state, the queue position reported for a
still-pending task with id k is exactly the number of still-pending tasks
that were submitted strictly before it (ids are assigned in submission
order), i.e. its 0-indexed distance from the front of the pending list. -/
theorem queue_position_eq (s : QueueState) (k : Nat) (t : Task)
    (hwf : WF s) (ht : t ∈ s.tasks) (hid : t.id = k)
    (hpend : t.status = TaskStatus.pending) :
    queuePosition s k =
      some (s.tasks.countP fun u => u.status == TaskStatus.pending && decide (u.id < k)) :=
  idx_eq_count k t s.tasks (List.pairwise_map.mp hwf.1) ht hid hpend

/-- C4 witness: with three submissions of which the first is already
processing, the third pending task sits at position 1: exactly one
still-pending task was submitted before it. -/
theorem queue_position_eq_witness :
    queuePosition (runOps (initState 5 3600)
        [QOp.submit 0, QOp.submit 1, QOp.submit 2, QOp.dequeue]) 2 = some 1 :=
  queue_position_eq
    (runOps (initState 5 3600) [QOp.submit 0, QOp.submit 1, QOp.submit 2, QOp.dequeue]) 2
    { id := 2, status := TaskStatus.pending, result := none, error := none,
      createdAt := 2, completedAt := none }
    (by constructor <;> decide) (by decide) (by decide) (by decide)

/-- C7: submit applies the backpressure policy: when the pending backlog has
reached the configured capacity it fails with QueueFull (none) and leaves the
state unchanged (the task is not enqueued), and when the backlog is below
capacity it accepts the task and the backlog grows by one. -/
theorem submit_backpressure (s : QueueState) (now : Nat) :
    (s.capacity ≤ pendingCount s → submit s now = (none, s)) ∧
    (pendingCount s < s.capacity →
      (submit s now).1 = some s.nextId ∧
        pendingCount (submit s now).2 = pendingCount s + 1) := by
  constructor
  · intro h
    unfold submit
    rw [if_pos h]
  · intro h
    unfold submit
    rw [if_neg (Nat.not_le.mpr h)]
    refine ⟨rfl, ?_⟩
    simp [pendingCount, List.filter_append]

/-- C7 witness: with capacity 3 and no dequeue between five back-to-back
submissions, the state after the first three is full, so the fourth (and,
the state being unchanged, likewise the fifth) submission is rejected with
QueueFull and enqueues nothing. -/
theorem submit_backpressure_witness :
    submit (runOps (initState 3 3600)
        [QOp.submit 0, QOp.submit 1, QOp.submit 2]) 3 =
      (none, runOps (initState 3 3600) [QOp.submit 0, QOp.submit 1, QOp.submit 2]) :=
  (submit_backpressure
    (runOps (initState 3 3600) [QOp.submit 0, QOp.submit 1, QOp.submit 2]) 3).1
    (by decide)

/-- C8: the janitor never deletes a pending or processing task (its status
read is unchanged), and once a terminal task's completion time is more than
the retention window in the past, the janitor scan removes it and a status
read answers NotFound (none). -/
theorem janitor_retention (s : QueueState) (now k : Nat) (t : Task)
    (hwf : WF s) (ht : t ∈ s.tasks) (hid : t.id = k) :
    (t.status.isTerminal = false → statusOf (janitor s now) k = some t.status) ∧
    (∀ c, t.completedAt = some c → t.status.isTerminal = true →
      s.retention < now - c → statusOf (janitor s now) k = none) := by
  have hpw := List.pairwise_map.mp hwf.1
  have hfu := find?_filter_unique (fun u => !evict s.retention now u) k t s.tasks hpw ht hid
  constructor
  · intro hterm
    have hev : evict s.retention now t = false := by
      unfold evict
      split
      · simp [hterm]
      · rfl
    simp [janitor, statusOf, hfu, hev]
  · intro c hc hterm hret
    have hev : evict s.retention now t = true := by
      unfold evict
      split
      · rename_i c2 hc2
        rw [hc] at hc2
        injection hc2 with he
        subst he
        simp [hterm, hret]
      · rename_i hc2
        rw [hc] at hc2
        cases hc2
    simp [janitor, statusOf, hfu, hev]

/-- C8 witness: a task completed at time 5 under a retention window of 10 is
gone from the status store after a janitor scan at time 100, while a
pending task survives the same scan. -/
theorem janitor_retention_witness :
    statusOf (janitor (runOps (initState 3 10)
        [QOp.submit 0, QOp.submit 1, QOp.dequeue, QOp.complete 0 "ok" 5]) 100) 0 = none :=
  (janitor_retention
    (runOps (initState 3 10) [QOp.submit 0, QOp.submit 1, QOp.dequeue, QOp.complete 0 "ok" 5])
    100 0
    { id := 0, status := TaskStatus.completed, result := some "ok", error := none,
      createdAt := 0, completedAt := some 5 }
    (by constructor <;> decide) (by decide) (by decide)).2 5 (by decide) (by decide) (by decide)

/-! ## ConversationOrchestrator -/

/-- Modelled from the spec: backend/services/gemini_service.py is not in
this checkout.  A structured tool-call request emitted by the model. -/
structure ToolCall where
  name : String
  args : String
deriving DecidableEq, Repr

/-- Modelled from the spec: one conversation turn; a model turn carries the
tool-call requests it issued, and a tool turn answers exactly one call with
its result. -/
inductive Turn
  | user (text : String)
  | model (text : String) (calls : List ToolCall)
  | tool (call : ToolCall) (result : String)
deriving DecidableEq, Repr

/-- Modelled from the spec: the orchestrator outcome, DONE with the final
answer or FAILED with ExhaustedToolLoop when the iteration bound is hit. -/
inductive Outcome
  | done (answer : String)
  | failedExhaustedToolLoop
deriving DecidableEq, Repr

/-- Modelled from the spec: the manual tool-calling loop (spec section 4.4).
The model behaviour is an arbitrary function modelFn from the current turn
sequence to the model's text plus issued tool calls; execTool is the
ToolExecutor (its string result may encode a structured failure).  Each
round sends the transcript, appends the model turn, then executes the
issued calls sequentially in order, appending exactly one tool turn per
call, before the next model call; a model turn without calls ends the loop
in DONE, and exhausting the iteration bound ends it in FAILED with
ExhaustedToolLoop.  The returned list is the sequence of turns the loop
appended to the transcript it was given. -/
def toolTurns (execTool : ToolCall → String) (calls : List ToolCall) : List Turn :=
  calls.map fun c => Turn.tool c (execTool c)

def orchLoop (modelFn : List Turn → String × List ToolCall)
    (execTool : ToolCall → String) : Nat → List Turn → List Turn × Outcome
  | 0, _ => ([], Outcome.failedExhaustedToolLoop)
  | maxIters + 1, ts =>
    if (modelFn ts).2 = [] then
      ([Turn.model (modelFn ts).1 []], Outcome.done (modelFn ts).1)
    else
      (Turn.model (modelFn ts).1 (modelFn ts).2 ::
          (toolTurns execTool (modelFn ts).2 ++
            (orchLoop modelFn execTool maxIters
              (ts ++ Turn.model (modelFn ts).1 (modelFn ts).2 ::
                toolTurns execTool (modelFn ts).2)).1),
        (orchLoop modelFn execTool maxIters
          (ts ++ Turn.model (modelFn ts).1 (modelFn ts).2 ::
            toolTurns execTool (modelFn ts).2)).2)

def isModelTurn : Turn → Bool
  | .model _ _ => true
  | _ => false

def modelTurnCount (ts : List Turn) : Nat := ts.countP isModelTurn

theorem modelTurnCount_toolTurns (execTool : ToolCall → String) (calls : List ToolCall) :
    modelTurnCount (toolTurns execTool calls) = 0 := by
  rw [modelTurnCount, List.countP_eq_zero]
  intro t ht
  obtain ⟨c, _, rfl⟩ := List.mem_map.mp ht
  simp [isModelTurn]

/-- C5: the tool-calling loop is total for every model behaviour, performs at
most the configured maximum number of model round-trips, and when the model
keeps issuing tool calls every round the loop ends in FAILED with
ExhaustedToolLoop instead of iterating further. -/
theorem orchLoop_bounded (modelFn : List Turn → String × List ToolCall)
    (execTool : ToolCall → String) (maxIters : Nat) (ts : List Turn) :
    modelTurnCount (orchLoop modelFn execTool maxIters ts).1 ≤ maxIters ∧
    ((∀ u : List Turn, (modelFn u).2 ≠ []) →
      (orchLoop modelFn execTool maxIters ts).2 = Outcome.failedExhaustedToolLoop) := by
  induction maxIters generalizing ts with
  | zero => exact ⟨Nat.le_refl 0, fun _ => rfl⟩
  | succ m ih =>
    rw [orchLoop]
    by_cases hc : (modelFn ts).2 = []
    · rw [if_pos hc]
      constructor
      · simp [modelTurnCount, List.countP_cons, isModelTurn]
      · intro hall
        exact absurd hc (hall ts)
    · rw [if_neg hc]
      constructor
      · have h1 := (ih (ts ++ Turn.model (modelFn ts).1 (modelFn ts).2 ::
          toolTurns execTool (modelFn ts).2)).1
        have h2 := modelTurnCount_toolTurns execTool (modelFn ts).2
        simp only [modelTurnCount] at h1 h2 ⊢
        rw [List.countP_cons, List.countP_append, h2]
        have h3 : isModelTurn (Turn.model (modelFn ts).1 (modelFn ts).2) = true := rfl
        rw [h3]
        simp only [if_pos]
        omega
      · intro hall
        exact (ih _).2 hall

/-- C5 witness: a model that always issues a tool call drives the loop into
FAILED with ExhaustedToolLoop within the bound. -/
theorem orchLoop_bounded_witness :
    modelTurnCount (orchLoop (fun _ => ("searching", [ToolCall.mk "search_papers" "eggs"]))
        (fun _ => "results") 3 []).1 ≤ 3 ∧
    (orchLoop (fun _ => ("searching", [ToolCall.mk "search_papers" "eggs"]))
        (fun _ => "results") 3 []).2 = Outcome.failedExhaustedToolLoop :=
  ⟨(orchLoop_bounded (fun _ => ("searching", [ToolCall.mk "search_papers" "eggs"]))
      (fun _ => "results") 3 []).1,
    (orchLoop_bounded (fun _ => ("searching", [ToolCall.mk "search_papers" "eggs"]))
      (fun _ => "results") 3 []).2 (fun u => by simp)⟩

/-- Checker for the call and response discipline of a transcript segment:
with no calls outstanding, a model turn opens its own list of calls and no
tool or user turn may appear; each outstanding call must be answered by
exactly one immediately following tool turn carrying that call and its
executor result, in the order the calls were issued. -/
def answersOk (execTool : ToolCall → String) : List ToolCall → List Turn → Bool
  | [], [] => true
  | [], Turn.model _ calls :: rest => answersOk execTool calls rest
  | [], Turn.user _ :: _ => false
  | [], Turn.tool _ _ :: _ => false
  | _ :: _, [] => false
  | c :: cs, Turn.tool c2 r :: rest =>
    c2 == c && r == execTool c && answersOk execTool cs rest
  | _ :: _, Turn.user _ :: _ => false
  | _ :: _, Turn.model _ _ :: _ => false

theorem answersOk_toolTurns (execTool : ToolCall → String) :
    ∀ (cs : List ToolCall) (rest : List Turn),
      answersOk execTool cs (toolTurns execTool cs ++ rest) =
        answersOk execTool [] rest := by
  intro cs
  induction cs with
  | nil => intro rest; rfl
  | cons c cs ih =>
    intro rest
    simp only [toolTurns, List.map_cons, List.cons_append, answersOk,
      beq_self_eq_true, Bool.true_and]
    exact ih rest

/-- C6: every transcript segment the tool-calling loop appends obeys the
call and response discipline: each tool call issued in a model turn is
answered by exactly one tool turn, the tool turns immediately follow the
model turn that issued them, in the order the calls were issued (the calls
are executed sequentially), each carrying the executor's result for its
call, all before the next model turn. -/
theorem orchLoop_transcript_wf (modelFn : List Turn → String × List ToolCall)
    (execTool : ToolCall → String) (maxIters : Nat) (ts : List Turn) :
    answersOk execTool [] (orchLoop modelFn execTool maxIters ts).1 = true := by
  induction maxIters generalizing ts with
  | zero => rfl
  | succ m ih =>
    rw [orchLoop]
    by_cases hc : (modelFn ts).2 = []
    · rw [if_pos hc]
      rfl
    · rw [if_neg hc]
      cases hcs : (modelFn ts).2 with
      | nil => exact absurd hcs hc
      | cons c cs =>
        simp only [hcs, answersOk, toolTurns, List.map_cons, List.cons_append,
          List.append_eq, beq_self_eq_true, Bool.true_and]
        have hswap := answersOk_toolTurns execTool cs
          (orchLoop modelFn execTool m
            (ts ++ Turn.model (modelFn ts).1 (c :: cs) ::
              toolTurns execTool (c :: cs))).1
        simp only [toolTurns, List.map_cons] at hswap
        rw [hswap]
        exact ih _

/-! ## Frontend: chat input submission guard -/

namespace Frontend

/-- One attached browser file, as far as the submit path inspects it
(frontend/components/ChatInput.tsx). -/
structure UIFile where
  name : String
  size : Nat
  lastModified : Nat
  mimeType : String
deriving DecidableEq, Repr

/-- Embeds the FilePreview record of frontend/components/ChatInput.tsx. -/
structure FilePreview where
  file : UIFile
  preview : Option String
deriving DecidableEq, Repr

/-- Embeds the JavaScript String.prototype.trim used by the submit paths:
leading and trailing whitespace characters are removed.  Written over the
character list so that it is executable by the kernel. -/
def jsTrim (s : String) : String :=
  String.mk (((s.data.dropWhile Char.isWhitespace).reverse.dropWhile
    Char.isWhitespace).reverse)

/-- Embeds handleSubmit of frontend/components/ChatInput.tsx: when disabled
it returns without calling onSubmit; it trims the message; when the trimmed
message is empty and no file is attached it returns without calling
onSubmit; otherwise it calls onSubmit with the trimmed message and the
attached files.  The result some payload models the call to onSubmit, none
models returning without calling it. -/
def handleSubmit (disabled : Bool) (message : String) (files : List FilePreview) :
    Option (String × List UIFile) :=
  if disabled then none
  else
    if jsTrim message = "" ∧ files = [] then none
    else some (jsTrim message, files.map FilePreview.file)

/-- Embeds the guard at the top of HomePage.handleSubmit
(frontend/app/page.tsx): it returns immediately when the message trims to
empty and the file list is empty; true models proceeding with the
submission. -/
def homeHandleSubmitProceeds (message : String) (files : List UIFile) : Bool :=
  if jsTrim message = "" ∧ files = [] then false else true

/-- C9: the chat input submit handler never calls onSubmit while disabled,
never calls it when the trimmed message is empty and no file is attached,
and every payload it does pass onward carries a non-empty trimmed message
or at least one file; the HomePage handler guards the same way. -/
theorem chatInput_submit_guard (disabled : Bool) (message : String)
    (files : List FilePreview) :
    (disabled = true → handleSubmit disabled message files = none) ∧
    (jsTrim message = "" → files = [] → handleSubmit disabled message files = none) ∧
    (∀ t fs, handleSubmit disabled message files = some (t, fs) →
      disabled = false ∧ t = jsTrim message ∧ (t ≠ "" ∨ fs ≠ [])) ∧
    (∀ (m2 : String) (fs2 : List UIFile), jsTrim m2 = "" → fs2 = [] →
      homeHandleSubmitProceeds m2 fs2 = false) := by
  refine ⟨?_, ?_, ?_, ?_⟩
  · intro hd
    simp [handleSubmit, hd]
  · intro hm hf
    simp [handleSubmit, hm, hf]
  · intro t fs h
    unfold handleSubmit at h
    by_cases hd : disabled
    · rw [if_pos hd] at h
      cases h
    · rw [if_neg hd] at h
      by_cases he : jsTrim message = "" ∧ files = []
      · rw [if_pos he] at h
        cases h
      · rw [if_neg he] at h
        injection h with h2
        injection h2 with ht hf
        subst ht
        subst hf
        refine ⟨by simpa using hd, rfl, ?_⟩
        by_cases hm : jsTrim message = ""
        · right
          have hfe : files ≠ [] := fun hfe => he ⟨hm, hfe⟩
          cases files with
          | nil => exact absurd rfl hfe
          | cons a l => simp
        · left
          exact hm
  · intro m2 fs2 hm hf
    simp [homeHandleSubmitProceeds, hm, hf]

/-- C9 witness: a disabled input drops the submission, an empty submission
is dropped, a whitespace-padded message is passed on trimmed, and the
HomePage guard stops an empty submission. -/
theorem chatInput_submit_guard_witness :
    handleSubmit true "hi" [] = none ∧
    handleSubmit false "" [] = none ∧
    (false = false ∧ "hi" = jsTrim "  hi " ∧ (("hi" : String) ≠ "" ∨ ([] : List UIFile) ≠ [])) ∧
    homeHandleSubmitProceeds "   " [] = false :=
  ⟨(chatInput_submit_guard true "hi" []).1 rfl,
    (chatInput_submit_guard false "" []).2.1 rfl rfl,
    (chatInput_submit_guard false "  hi " []).2.2.1 "hi" [] (by decide),
    (chatInput_submit_guard false "x" []).2.2.2 "   " [] (by decide) rfl⟩

/-! ## Frontend: conversation history bound -/

/-- Embeds the Message record of frontend/hooks/useConversationHistory.ts. -/
structure Message where
  id : String
  role : String
  content : String
  timestamp : Nat
  files : Option (List UIFile)
deriving DecidableEq, Repr

/-- Embeds the Conversation record of
frontend/hooks/useConversationHistory.ts. -/
structure Conversation where
  id : String
  title : String
  messages : List Message
  createdAt : Nat
  updatedAt : Nat
deriving DecidableEq, Repr

def MAX_CONVERSATIONS : Nat := 50

/-- Embeds generateTitle of frontend/hooks/useConversationHistory.ts: the
trimmed content with newlines replaced by spaces, truncated to 50
characters with an ellipsis. -/
def generateTitle (content : String) : String :=
  if ((jsTrim content).replace "\n" " ").length ≤ 50 then
    (jsTrim content).replace "\n" " "
  else
    (((jsTrim content).replace "\n" " ").take 47) ++ "..."

/-- Embeds createConversation of frontend/hooks/useConversationHistory.ts:
it prepends the new conversation and truncates the list to
MAX_CONVERSATIONS entries; an empty firstMessage (the falsy case) falls
back to the default title. -/
def createConversation (idStr : String) (now : Nat) (firstMessage defaultTitle : String)
    (prev : List Conversation) : List Conversation :=
  ({ id := idStr,
     title := if firstMessage = "" then defaultTitle else generateTitle firstMessage,
     messages := [],
     createdAt := now,
     updatedAt := now } :: prev).take MAX_CONVERSATIONS

/-- Embeds addMessage of frontend/hooks/useConversationHistory.ts: it maps
over the list, appending the new message to the matching conversation and
retitling it when this is the first user message. -/
def addMessage (conversationId messageId : String) (role : String) (content : String)
    (files : Option (List UIFile)) (now : Nat)
    (prev : List Conversation) : List Conversation :=
  prev.map fun conv =>
    if conv.id ≠ conversationId then conv
    else
      let updated : Conversation :=
        { conv with
          messages := conv.messages ++
            [{ id := messageId, role := role, content := content,
               timestamp := now, files := files }],
          updatedAt := now }
      if role = "user" ∧ conv.messages = [] then
        let titleSource :=
          if content ≠ "" then content
          else
            match files with
            | some (f :: _) => f.name
            | _ => ""
        if titleSource ≠ "" then { updated with title := generateTitle titleSource }
        else updated
      else updated

/-- Embeds updateMessage of frontend/hooks/useConversationHistory.ts. -/
def updateMessage (conversationId messageId content : String) (now : Nat)
    (prev : List Conversation) : List Conversation :=
  prev.map fun conv =>
    if conv.id ≠ conversationId then conv
    else
      { conv with
        messages := conv.messages.map fun m =>
          if m.id ≠ messageId then m else { m with content := content },
        updatedAt := now }

/-- Embeds deleteConversation of frontend/hooks/useConversationHistory.ts. -/
def deleteConversation (conversationId : String)
    (prev : List Conversation) : List Conversation :=
  prev.filter fun conv => conv.id != conversationId

/-- Embeds clearAllConversations of
frontend/hooks/useConversationHistory.ts. -/
def clearAllConversations : List Conversation := []

/-- The operations of the useConversationHistory hook that touch the stored
list; switchConversation only changes the current id, leaving the list
as it is. -/
inductive ConvOp
  | create (idStr : String) (now : Nat) (firstMessage defaultTitle : String)
  | add (conversationId messageId role content : String)
      (files : Option (List UIFile)) (now : Nat)
  | update (conversationId messageId content : String) (now : Nat)
  | delete (conversationId : String)
  | switch (conversationId : Option String)
  | clear
deriving Repr

def applyConvOp (l : List Conversation) : ConvOp → List Conversation
  | .create idStr now firstMessage defaultTitle =>
    createConversation idStr now firstMessage defaultTitle l
  | .add conversationId messageId role content files now =>
    addMessage conversationId messageId role content files now l
  | .update conversationId messageId content now =>
    updateMessage conversationId messageId content now l
  | .delete conversationId => deleteConversation conversationId l
  | .switch _ => l
  | .clear => clearAllConversations

def runConvOps (l : List Conversation) : List ConvOp → List Conversation
  | [] => l
  | op :: ops => runConvOps (applyConvOp l op) ops

theorem applyConvOp_length (l : List Conversation) (hl : l.length ≤ MAX_CONVERSATIONS)
    (op : ConvOp) : (applyConvOp l op).length ≤ MAX_CONVERSATIONS := by
  cases op with
  | create idStr now firstMessage defaultTitle =>
    simp [applyConvOp, createConversation]
  | add conversationId messageId role content files now =>
    simpa [applyConvOp, addMessage] using hl
  | update conversationId messageId content now =>
    simpa [applyConvOp, updateMessage] using hl
  | delete conversationId =>
    exact Nat.le_trans (by simpa [applyConvOp, deleteConversation] using
      List.length_filter_le _ l) hl
  | switch conversationId => exact hl
  | clear => simp [applyConvOp, clearAllConversations]

/-- C10: the stored conversation list never exceeds MAX_CONVERSATIONS = 50:
createConversation prepends and truncates to 50 entries, addMessage and
updateMessage keep the length unchanged, deleteConversation only shrinks
it, clearAllConversations empties it, switchConversation leaves it alone,
and hence any sequence of hook operations starting from the empty store
stays within the bound. -/
theorem conversations_bounded :
    (∀ (idStr : String) (now : Nat) (firstMessage defaultTitle : String)
        (l : List Conversation),
      (createConversation idStr now firstMessage defaultTitle l).length ≤
        MAX_CONVERSATIONS) ∧
    (∀ (conversationId messageId role content : String)
        (files : Option (List UIFile)) (now : Nat) (l : List Conversation),
      (addMessage conversationId messageId role content files now l).length =
        l.length) ∧
    (∀ (conversationId messageId content : String) (now : Nat)
        (l : List Conversation),
      (updateMessage conversationId messageId content now l).length = l.length) ∧
    (∀ (conversationId : String) (l : List Conversation),
      (deleteConversation conversationId l).length ≤ l.length) ∧
    (∀ ops : List ConvOp, (runConvOps [] ops).length ≤ MAX_CONVERSATIONS) := by
  refine ⟨?_, ?_, ?_, ?_, ?_⟩
  · intro idStr now firstMessage defaultTitle l
    simp [createConversation]
  · intro conversationId messageId role content files now l
    simp [addMessage]
  · intro conversationId messageId content now l
    simp [updateMessage]
  · intro conversationId l
    simpa [deleteConversation] using List.length_filter_le _ l
  · have haux : ∀ (ops : List ConvOp) (l : List Conversation),
        l.length ≤ MAX_CONVERSATIONS → (runConvOps l ops).length ≤ MAX_CONVERSATIONS := by
      intro ops
      induction ops with
      | nil => intro l hl; exact hl
      | cons op ops ih =>
        intro l hl
        exact ih _ (applyConvOp_length l hl op)
    intro ops
    exact haux ops [] (by simp [MAX_CONVERSATIONS])

end Frontend

end TruthSeeker
